import Mathlib

/-
Verification of the batch Elo fixed-point core (`src/main.rs`).

Modelling conventions:
- `f64` values are modelled as real numbers (`ℝ`); the floating-point
  literals `10.0`, `400.0`, `1500.0`, `0.01` of the source become the
  corresponding exact real constants, and `10.0f64.powf` becomes `Real.rpow`.
- A Rust `panic!` (negative points, out-of-bounds vector index) is modelled
  by `Option.none`; all functions that can panic return `Option`.
- `Vec<f64>` is modelled as `List ℝ`, indexing via `List.get?`.
-/

open scoped Classical

noncomputable section

/-! ### Definitions: shallow embedding of the source and derived views -/

/-- Model of `TeamResult` from the source: one side's rating and points of one game. -/
structure TeamResult where
  rating : ℝ
  points : ℝ

/-- The fixed K-factor `K = 10.0` of `elo_adjustment`. -/
def K : ℝ := 10

/-- The closure `q` of `elo_adjustment`: `10.0f64.powf(rating / 400.0)`. -/
def qval (rating : ℝ) : ℝ := (10 : ℝ) ^ (rating / 400)

/-- Model of `elo_adjustment` from the source.  Panics (`none`) when either points
value is negative; returns `0` when both points are zero; otherwise
`K * (actual - expected)`. -/
def elo_adjustment (team opponent : TeamResult) : Option ℝ :=
  if team.points < 0 ∨ opponent.points < 0 then
    none
  else if team.points = 0 ∧ opponent.points = 0 then
    some 0
  else
    some (K * (team.points / (team.points + opponent.points)
      - qval team.rating / (qval team.rating + qval opponent.rating)))

/-- Model of `Game` from the source: two competitor indices and their points. -/
structure Game where
  index_a : ℕ
  index_b : ℕ
  points_a : ℝ
  points_b : ℝ

/-- Model of `adjustments[i] += x`: in-place addition at index `i`, leaving the list
unchanged when `i` is out of bounds (callers establish the bound before). -/
def addAt : List ℝ → ℕ → ℝ → List ℝ
  | [], _, _ => []
  | y :: ys, 0, x => (y + x) :: ys
  | y :: ys, n + 1, x => y :: addAt ys n x

/-- One iteration of the game loop in `batch_adjustments`: read the two
ratings (panicking on out-of-bounds), compute both pairwise adjustments
(panicking on negative points), and accumulate them into the two slots. -/
def game_step (ratings : List ℝ) (adjustments : List ℝ) (game : Game) :
    Option (List ℝ) := do
  let ra ← ratings.get? game.index_a
  let rb ← ratings.get? game.index_b
  let adj_a ← elo_adjustment ⟨ra, game.points_a⟩ ⟨rb, game.points_b⟩
  let adj_b ← elo_adjustment ⟨rb, game.points_b⟩ ⟨ra, game.points_a⟩
  some (addAt (addAt adjustments game.index_a adj_a) game.index_b adj_b)

/-- Model of `batch_adjustments` from the source: fold `game_step` over the games,
starting from the all-zero vector of the same length as `ratings`. -/
def batch_adjustments (ratings : List ℝ) (games : List Game) :
    Option (List ℝ) :=
  games.foldlM (game_step ratings) (List.replicate ratings.length 0)

/-- The convergence tolerance `EPSILON = 0.01` of `elo_ratings`. -/
def EPSILON : ℝ := 0.01

/-- The round limit `LIMIT = 10000` of `elo_ratings`. -/
def LIMIT : ℕ := 10000

/-- Model of `ConvergenceFailure` from the source: the diagnostic bundle returned
when the round limit is exhausted. -/
structure ConvergenceFailure where
  rounds : ℕ
  last_ratings : List ℝ
  last_adjustments : List ℝ

/-- The convergence test of a round: the code sets `converged = false`
exactly when some adjustment has `a.abs() > EPSILON`. -/
def within_epsilon (adjustments : List ℝ) : Prop :=
  ∀ a ∈ adjustments, |a| ≤ EPSILON

/-- The `for _ in 0..LIMIT` loop of `elo_ratings`, with the remaining fuel
explicit.  Each round computes the batch adjustments, applies every
adjustment to the corresponding rating, and only then tests convergence;
when the fuel runs out the diagnostic bundle is produced. -/
def elo_loop (games : List Game) :
    ℕ → List ℝ → List ℝ → Option (Except ConvergenceFailure (List ℝ))
  | 0, ratings, adjustments =>
      some (Except.error ⟨LIMIT, ratings, adjustments⟩)
  | fuel + 1, ratings, _ => do
      let adjustments ← batch_adjustments ratings games
      let ratings := List.zipWith (· + ·) ratings adjustments
      if within_epsilon adjustments then
        some (Except.ok ratings)
      else
        elo_loop games fuel ratings adjustments

/-- Model of `elo_ratings` from the source: every competitor starts at `1500.0`,
`adjustments` starts at zero, and the loop runs for at most `LIMIT` rounds. -/
def elo_ratings (n_teams : ℕ) (games : List Game) :
    Option (Except ConvergenceFailure (List ℝ)) :=
  elo_loop games LIMIT (List.replicate n_teams 1500) (List.replicate n_teams 0)

/-- The value `elo_adjustment` returns when the points are nonnegative. -/
def pairAdj (r0 r1 pa pb : ℝ) : ℝ :=
  if pa = 0 ∧ pb = 0 then 0
  else K * (pa / (pa + pb) - qval r0 / (qval r0 + qval r1))

/-- What one game adds to slot `i`, computed from the rating snapshot
`ratings` only. -/
def contribution (ratings : List ℝ) (i : ℕ) (g : Game) : ℝ :=
  (if g.index_a = i then
    pairAdj (ratings.getD g.index_a 0) (ratings.getD g.index_b 0)
      g.points_a g.points_b
  else 0)
  + (if g.index_b = i then
    pairAdj (ratings.getD g.index_b 0) (ratings.getD g.index_a 0)
      g.points_b g.points_a
  else 0)

/-- The spec value of slot `i` of the batch: zero plus every game's
contribution, all read from the unmodified input snapshot. -/
def batch_spec (ratings : List ℝ) (games : List Game) (i : ℕ) : ℝ :=
  (games.map (contribution ratings i)).sum

/-- The rating vector after `k` full rounds, starting from `ratings`
(`none` when some round panicked). -/
def ratings_after (games : List Game) (ratings : List ℝ) : ℕ → Option (List ℝ)
  | 0 => some ratings
  | k + 1 => (ratings_after games ratings k).bind fun r =>
      (batch_adjustments r games).bind fun adj =>
        some (List.zipWith (· + ·) r adj)

/-- The adjustment vector computed in round `k + 1`, i.e. from the
ratings after `k` rounds. -/
def round_adj (games : List Game) (ratings : List ℝ) (k : ℕ) :
    Option (List ℝ) :=
  (ratings_after games ratings k).bind fun r => batch_adjustments r games

/-- A game list entirely between players `0` and `1` (in that slot order)
with valid, not-both-zero points. -/
def two_player (games : List Game) : Prop :=
  ∀ g ∈ games, g.index_a = 0 ∧ g.index_b = 1 ∧
    0 ≤ g.points_a ∧ 0 ≤ g.points_b ∧ 0 < g.points_a + g.points_b

/-- Total actual score of player `0` over a two-player game list. -/
def actual_sum (games : List Game) : ℝ :=
  (games.map (fun g => g.points_a / (g.points_a + g.points_b))).sum

/-- Player `0`'s expected score as a function of the rating gap
`x = r0 - r1`. -/
def Egap (x : ℝ) : ℝ := qval x / (qval x + 1)

/-- Player `0`'s total adjustment in one round as a function of the gap. -/
def gapAdj (games : List Game) (x : ℝ) : ℝ :=
  10 * (actual_sum games - games.length * Egap x)

/-- The symmetric two-player rating state with gap `x`. -/
def stg (x : ℝ) : List ℝ := [1500 + x / 2, 1500 - x / 2]

/-- The gap after `k` rounds, starting from gap `x`. -/
def gapFrom (games : List Game) (x : ℝ) : ℕ → ℝ
  | 0 => x
  | k + 1 => gapFrom games x k + 2 * gapAdj games (gapFrom games x k)

/-- The single game `(a, b, 1.0, 0.0)` of the concrete scenario. -/
def games9 : List Game := [Game.mk 0 1 1 0]

/-- The gap orbit of the concrete scenario, started from equal ratings. -/
def g9 : ℕ → ℝ := gapFrom games9 0

def oscGames : List Game :=
  Game.mk 0 1 1 0 :: List.replicate 400000 (Game.mk 0 1 1 1)

/-! ### Basic facts about `qval` -/

theorem qval_pos (r : ℝ) : 0 < qval r :=
  Real.rpow_pos_of_pos (by norm_num) _

/-! ### C1: the pairwise adjustment formula -/

theorem elo_adjustment_value (team opponent : TeamResult)
    (h1 : 0 ≤ team.points) (h2 : 0 ≤ opponent.points)
    (h3 : ¬(team.points = 0 ∧ opponent.points = 0)) :
    elo_adjustment team opponent =
      some (K * (team.points / (team.points + opponent.points)
        - qval team.rating / (qval team.rating + qval opponent.rating))) := by
  have hneg : ¬(team.points < 0 ∨ opponent.points < 0) := by
    push_neg
    exact ⟨h1, h2⟩
  rw [elo_adjustment, if_neg hneg, if_neg h3]

/-- C1: for nonnegative points that are not both zero, `elo_adjustment`
returns exactly `K * (actual - expected)` with `K = 10`, expected score
`qval team.rating / (qval team.rating + qval opponent.rating)` and actual
score `team.points / (team.points + opponent.points)`; it is a pure
function of its four numeric inputs. -/
theorem elo_adjustment_formula (team opponent : TeamResult)
    (h1 : 0 ≤ team.points) (h2 : 0 ≤ opponent.points)
    (h3 : ¬(team.points = 0 ∧ opponent.points = 0)) :
    elo_adjustment team opponent =
      some (K * (team.points / (team.points + opponent.points)
        - qval team.rating / (qval team.rating + qval opponent.rating))) :=
  elo_adjustment_value team opponent h1 h2 h3

/-- Witness for C1 at team `(1500, 1)` against opponent `(1400, 0)`. -/
theorem elo_adjustment_formula_witness :
    (0 : ℝ) ≤ 1 ∧ (0 : ℝ) ≤ 0 ∧ ¬((1 : ℝ) = 0 ∧ (0 : ℝ) = 0) ∧
      elo_adjustment ⟨1500, 1⟩ ⟨1400, 0⟩ =
        some (K * ((1 : ℝ) / (1 + 0) - qval 1500 / (qval 1500 + qval 1400))) :=
  ⟨by norm_num, le_refl 0, by norm_num,
    elo_adjustment_formula ⟨1500, 1⟩ ⟨1400, 0⟩ (by norm_num) (le_refl 0)
      (by norm_num)⟩

/-! ### C6: a game with both points zero adjusts nothing -/

/-- C6: for every pair of ratings, a game in which both points values are
exactly zero yields a pairwise adjustment of exactly `0` for both sides. -/
theorem elo_adjustment_zero_game (ra rb : ℝ) :
    elo_adjustment ⟨ra, 0⟩ ⟨rb, 0⟩ = some 0 ∧
      elo_adjustment ⟨rb, 0⟩ ⟨ra, 0⟩ = some 0 := by
  constructor <;> simp [elo_adjustment]

/-! ### C8: swapping the two sides negates the adjustment -/

/-- C8: for nonnegative points, swapping the two sides negates the
pairwise adjustment. -/
theorem elo_adjustment_antisym (ra rb pa pb : ℝ)
    (h1 : 0 ≤ pa) (h2 : 0 ≤ pb) :
    elo_adjustment ⟨ra, pa⟩ ⟨rb, pb⟩ =
      Option.map (fun x => -x) (elo_adjustment ⟨rb, pb⟩ ⟨ra, pa⟩) := by
  by_cases h0 : pa = 0 ∧ pb = 0
  · obtain ⟨ha0, hb0⟩ := h0
    subst ha0
    subst hb0
    simp [elo_adjustment]
  · have h0' : ¬(pb = 0 ∧ pa = 0) := fun h => h0 ⟨h.2, h.1⟩
    rw [elo_adjustment_value ⟨ra, pa⟩ ⟨rb, pb⟩ h1 h2 h0,
      elo_adjustment_value ⟨rb, pb⟩ ⟨ra, pa⟩ h2 h1 h0']
    have hs : 0 < pa + pb := by
      rcases lt_or_eq_of_le h1 with hpa | hpa
      · linarith
      · rcases lt_or_eq_of_le h2 with hpb | hpb
        · linarith
        · exact absurd ⟨hpa.symm, hpb.symm⟩ h0
    have ht : 0 < qval ra + qval rb := by
      have := qval_pos ra
      have := qval_pos rb
      linarith
    simp only [Option.map_some']
    congr 1
    have hsne : pa + pb ≠ 0 := ne_of_gt hs
    have htne : qval ra + qval rb ≠ 0 := ne_of_gt ht
    have hsne' : pb + pa ≠ 0 := by
      rw [add_comm]
      exact hsne
    have htne' : qval rb + qval ra ≠ 0 := by
      rw [add_comm]
      exact htne
    field_simp
    ring

/-- Witness for C8 at ratings `1500, 1500` and points `1, 0`. -/
theorem elo_adjustment_antisym_witness :
    (0 : ℝ) ≤ 1 ∧ (0 : ℝ) ≤ 0 ∧
      elo_adjustment ⟨1500, 1⟩ ⟨1500, 0⟩ =
        Option.map (fun x => -x) (elo_adjustment ⟨1500, 0⟩ ⟨1500, 1⟩) :=
  ⟨by norm_num, le_refl 0,
    elo_adjustment_antisym 1500 1500 1 0 (by norm_num) (le_refl 0)⟩

/-! ### The value of a successful pairwise adjustment -/

theorem elo_adjustment_eq_pairAdj (r0 r1 pa pb : ℝ)
    (h1 : 0 ≤ pa) (h2 : 0 ≤ pb) :
    elo_adjustment ⟨r0, pa⟩ ⟨r1, pb⟩ = some (pairAdj r0 r1 pa pb) := by
  by_cases h0 : pa = 0 ∧ pb = 0
  · obtain ⟨ha0, hb0⟩ := h0
    subst ha0
    subst hb0
    simp [elo_adjustment, pairAdj]
  · rw [elo_adjustment_value ⟨r0, pa⟩ ⟨r1, pb⟩ h1 h2 h0, pairAdj, if_neg h0]

/-! ### Index lemmas for `addAt` -/

theorem addAt_length (l : List ℝ) (i : ℕ) (x : ℝ) :
    (addAt l i x).length = l.length := by
  induction l generalizing i with
  | nil => rfl
  | cons y ys ih =>
    cases i with
    | zero => rfl
    | succ n => simp [addAt, ih]

theorem addAt_get?_self (l : List ℝ) (i : ℕ) (x : ℝ) :
    (addAt l i x).get? i = (l.get? i).map (fun a => a + x) := by
  induction l generalizing i with
  | nil => simp [addAt]
  | cons y ys ih =>
    cases i with
    | zero => rfl
    | succ n => simpa [addAt] using ih n

theorem addAt_get?_ne (l : List ℝ) (i j : ℕ) (x : ℝ) (h : j ≠ i) :
    (addAt l i x).get? j = l.get? j := by
  induction l generalizing i j with
  | nil => simp [addAt]
  | cons y ys ih =>
    cases i with
    | zero =>
      cases j with
      | zero => exact absurd rfl h
      | succ m => rfl
    | succ n =>
      cases j with
      | zero => rfl
      | succ m => simpa [addAt] using ih n m (fun hc => h (by rw [hc]))

/-! ### C4: the batch aggregator computes per-slot sums from one snapshot -/

theorem get?_replicate_eq (n i : ℕ) (x : ℝ) :
    (List.replicate n x).get? i = if i < n then some x else none := by
  rw [List.get?_eq_getElem?, List.getElem?_replicate]

theorem getD_eq_of_get? {l : List ℝ} {i : ℕ} {a : ℝ} (h : l.get? i = some a) :
    l.getD i 0 = a := by
  rw [List.getD_eq_getElem?_getD, ← List.get?_eq_getElem?, h]
  rfl

/-- A successful `game_step` adds exactly the two snapshot contributions. -/
theorem game_step_eq (ratings adjustments : List ℝ) (g : Game)
    (ha : g.index_a < ratings.length) (hb : g.index_b < ratings.length)
    (hpa : 0 ≤ g.points_a) (hpb : 0 ≤ g.points_b) :
    game_step ratings adjustments g =
      some (addAt
        (addAt adjustments g.index_a
          (pairAdj (ratings.getD g.index_a 0) (ratings.getD g.index_b 0)
            g.points_a g.points_b))
        g.index_b
        (pairAdj (ratings.getD g.index_b 0) (ratings.getD g.index_a 0)
          g.points_b g.points_a)) := by
  have hra : ratings.get? g.index_a = some (ratings.get ⟨g.index_a, ha⟩) :=
    List.get?_eq_get ha
  have hrb : ratings.get? g.index_b = some (ratings.get ⟨g.index_b, hb⟩) :=
    List.get?_eq_get hb
  rw [game_step]
  simp only [hra, hrb, Option.some_bind, Option.bind_eq_bind,
    elo_adjustment_eq_pairAdj _ _ g.points_a g.points_b hpa hpb,
    elo_adjustment_eq_pairAdj _ _ g.points_b g.points_a hpb hpa]
  rw [getD_eq_of_get? hra, getD_eq_of_get? hrb]

/-- A successful `game_step` changes slot `i` by `contribution ratings i g`. -/
theorem game_step_get? (ratings adjustments : List ℝ) (g : Game) (i : ℕ)
    (ha : g.index_a < ratings.length) (hb : g.index_b < ratings.length)
    (hpa : 0 ≤ g.points_a) (hpb : 0 ≤ g.points_b) :
    game_step ratings adjustments g =
      some (addAt
        (addAt adjustments g.index_a
          (pairAdj (ratings.getD g.index_a 0) (ratings.getD g.index_b 0)
            g.points_a g.points_b))
        g.index_b
        (pairAdj (ratings.getD g.index_b 0) (ratings.getD g.index_a 0)
          g.points_b g.points_a)) ∧
    (addAt
        (addAt adjustments g.index_a
          (pairAdj (ratings.getD g.index_a 0) (ratings.getD g.index_b 0)
            g.points_a g.points_b))
        g.index_b
        (pairAdj (ratings.getD g.index_b 0) (ratings.getD g.index_a 0)
          g.points_b g.points_a)).get? i =
      (adjustments.get? i).map (fun a => a + contribution ratings i g) := by
  refine ⟨game_step_eq ratings adjustments g ha hb hpa hpb, ?_⟩
  by_cases hia : g.index_a = i
  · by_cases hib : g.index_b = i
    · rw [hib, addAt_get?_self, hia, addAt_get?_self]
      rw [contribution, if_pos hia, if_pos hib]
      cases adjustments.get? i with
      | none => rfl
      | some a =>
        simp only [Option.map_some']
        rw [hia, hib]
        congr 1
        ring
    · rw [addAt_get?_ne _ _ _ _ (fun hc => hib hc.symm), hia, addAt_get?_self]
      rw [contribution, if_pos hia, if_neg hib]
      cases adjustments.get? i with
      | none => rfl
      | some a =>
        simp only [Option.map_some']
        rw [hia]
        congr 1
        ring
  · by_cases hib : g.index_b = i
    · rw [hib, addAt_get?_self, addAt_get?_ne _ _ _ _ (fun hc => hia hc.symm)]
      rw [contribution, if_neg hia, if_pos hib]
      cases adjustments.get? i with
      | none => rfl
      | some a =>
        simp only [Option.map_some']
        rw [hib]
        congr 1
        ring
    · rw [addAt_get?_ne _ _ _ _ (fun hc => hib hc.symm),
        addAt_get?_ne _ _ _ _ (fun hc => hia hc.symm)]
      rw [contribution, if_neg hia, if_neg hib]
      cases adjustments.get? i with
      | none => rfl
      | some a => simp

/-- Folding `game_step` over the games succeeds and adds, to every slot,
the sum of that slot's contributions, all computed from `ratings`. -/
theorem foldlM_game_step_get? (ratings : List ℝ) (games : List Game)
    (hidx : ∀ g ∈ games,
      g.index_a < ratings.length ∧ g.index_b < ratings.length)
    (hpts : ∀ g ∈ games, 0 ≤ g.points_a ∧ 0 ≤ g.points_b) :
    ∀ adj0 : List ℝ, ∃ adj, games.foldlM (game_step ratings) adj0 = some adj ∧
      ∀ i, adj.get? i =
        (adj0.get? i).map (fun a => a + batch_spec ratings games i) := by
  induction games with
  | nil =>
    intro adj0
    refine ⟨adj0, rfl, fun i => ?_⟩
    rw [batch_spec]
    cases adj0.get? i with
    | none => rfl
    | some a => simp
  | cons g gs ih =>
    intro adj0
    have hg := hidx g (List.mem_cons_self g gs)
    have hp := hpts g (List.mem_cons_self g gs)
    obtain ⟨hstep, hget⟩ :=
      game_step_get? ratings adj0 g 0 hg.1 hg.2 hp.1 hp.2
    obtain ⟨adj, hadj, hiadj⟩ :=
      ih (fun g hm => hidx g (List.mem_cons_of_mem _ hm))
        (fun g hm => hpts g (List.mem_cons_of_mem _ hm))
        (addAt
          (addAt adj0 g.index_a
            (pairAdj (ratings.getD g.index_a 0) (ratings.getD g.index_b 0)
              g.points_a g.points_b))
          g.index_b
          (pairAdj (ratings.getD g.index_b 0) (ratings.getD g.index_a 0)
            g.points_b g.points_a))
    refine ⟨adj, ?_, fun i => ?_⟩
    · simp only [List.foldlM_cons, hstep, Option.bind_eq_bind, Option.some_bind]
      exact hadj
    · rw [hiadj i,
        (game_step_get? ratings adj0 g i hg.1 hg.2 hp.1 hp.2).2,
        Option.map_map]
      have hbc : batch_spec ratings (g :: gs) i =
          contribution ratings i g + batch_spec ratings gs i := by
        simp [batch_spec]
      rw [hbc]
      cases adj0.get? i with
      | none => rfl
      | some a =>
        simp only [Option.map_some', Function.comp_apply]
        congr 1
        ring

theorem batch_adjustments_full (ratings : List ℝ) (games : List Game)
    (hidx : ∀ g ∈ games,
      g.index_a < ratings.length ∧ g.index_b < ratings.length)
    (hpts : ∀ g ∈ games, 0 ≤ g.points_a ∧ 0 ≤ g.points_b) :
    ∃ adj, batch_adjustments ratings games = some adj ∧
      adj.length = ratings.length ∧
      ∀ i < ratings.length,
        adj.get? i = some (batch_spec ratings games i) := by
  obtain ⟨adj, hadj, hget⟩ :=
    foldlM_game_step_get? ratings games hidx hpts
      (List.replicate ratings.length 0)
  refine ⟨adj, hadj, ?_, fun i hi => ?_⟩
  · apply le_antisymm
    · have h := hget ratings.length
      rw [get?_replicate_eq, if_neg (lt_irrefl ratings.length)] at h
      exact List.get?_eq_none.1 h
    · have h := hget adj.length
      rw [List.get?_eq_none.2 (le_refl adj.length)] at h
      by_contra hc
      rw [get?_replicate_eq, if_pos (lt_of_not_le hc)] at h
      exact Option.noConfusion h
  · have h := hget i
    rw [get?_replicate_eq, if_pos hi] at h
    rw [h, Option.map_some', zero_add]

/-- C4: under valid indices and nonnegative points, the batch aggregator
returns a vector of the same length as the ratings, whose slot `i` is the
zero vector plus every game's pairwise contributions to slot `i`, all
computed from the unmodified input rating snapshot. -/
theorem batch_adjustments_spec (ratings : List ℝ) (games : List Game)
    (hidx : ∀ g ∈ games,
      g.index_a < ratings.length ∧ g.index_b < ratings.length)
    (hpts : ∀ g ∈ games, 0 ≤ g.points_a ∧ 0 ≤ g.points_b) :
    ∃ adj, batch_adjustments ratings games = some adj ∧
      adj.length = ratings.length ∧
      ∀ i < ratings.length,
        adj.get? i = some (batch_spec ratings games i) :=
  batch_adjustments_full ratings games hidx hpts

/-- Witness for C4: two teams at `1500`, one game `(0, 1, 1, 0)`. -/
theorem batch_adjustments_spec_witness :
    (∀ g ∈ [Game.mk 0 1 1 0],
      g.index_a < ([(1500 : ℝ), 1500]).length ∧
        g.index_b < ([(1500 : ℝ), 1500]).length) ∧
    (∀ g ∈ [Game.mk 0 1 1 0], 0 ≤ g.points_a ∧ 0 ≤ g.points_b) ∧
    (∃ adj, batch_adjustments [(1500 : ℝ), 1500] [Game.mk 0 1 1 0] = some adj ∧
      adj.length = ([(1500 : ℝ), 1500]).length ∧
      ∀ i < ([(1500 : ℝ), 1500]).length,
        adj.get? i =
          some (batch_spec [(1500 : ℝ), 1500] [Game.mk 0 1 1 0] i)) := by
  have h1 : ∀ g ∈ [Game.mk 0 1 1 0],
      g.index_a < ([(1500 : ℝ), 1500]).length ∧
        g.index_b < ([(1500 : ℝ), 1500]).length := by
    intro g hg
    rw [List.mem_singleton] at hg
    subst hg
    exact ⟨by norm_num, by norm_num⟩
  have h2 : ∀ g ∈ [Game.mk 0 1 1 0], 0 ≤ g.points_a ∧ 0 ≤ g.points_b := by
    intro g hg
    rw [List.mem_singleton] at hg
    subst hg
    exact ⟨by norm_num, le_refl 0⟩
  exact ⟨h1, h2, batch_adjustments_spec [(1500 : ℝ), 1500] [Game.mk 0 1 1 0] h1 h2⟩

/-! ### C5: negative points abort the whole computation -/

theorem game_step_neg (ratings adjustments : List ℝ) (g : Game)
    (h : g.points_a < 0 ∨ g.points_b < 0) :
    game_step ratings adjustments g = none := by
  have hadj : elo_adjustment ⟨0, g.points_a⟩ ⟨0, g.points_b⟩ = none := by
    rw [elo_adjustment, if_pos h]
  rw [game_step]
  cases hra : ratings.get? g.index_a with
  | none => rfl
  | some ra =>
    cases hrb : ratings.get? g.index_b with
    | none => simp [hrb]
    | some rb =>
      have hnone : elo_adjustment ⟨ra, g.points_a⟩ ⟨rb, g.points_b⟩ = none := by
        rw [elo_adjustment, if_pos h]
      simp [hrb, hnone]

theorem foldlM_game_step_none (ratings : List ℝ) (games : List Game)
    (g : Game) (hm : g ∈ games) (h : g.points_a < 0 ∨ g.points_b < 0) :
    ∀ adj0 : List ℝ, games.foldlM (game_step ratings) adj0 = none := by
  induction games with
  | nil => cases hm
  | cons g0 gs ih =>
    intro adj0
    rw [List.foldlM_cons]
    rcases List.mem_cons.1 hm with he | hm2
    · subst he
      simp [game_step_neg ratings adj0 g h]
    · cases hstep : game_step ratings adj0 g0 with
      | none => simp
      | some adj1 =>
        simp only [Option.bind_eq_bind, Option.some_bind]
        exact ih hm2 adj1

/-- C5: a game with a negative points value makes the whole computation
abort (model: `none`, the image of the Rust `panic!`) with no rating
result of any kind. -/
theorem elo_ratings_neg_abort (n_teams : ℕ) (games : List Game)
    (h : ∃ g ∈ games, g.points_a < 0 ∨ g.points_b < 0) :
    elo_ratings n_teams games = none := by
  obtain ⟨g, hm, hneg⟩ := h
  have hbatch : ∀ ratings : List ℝ, batch_adjustments ratings games = none :=
    fun ratings => foldlM_game_step_none ratings games g hm hneg _
  have hL : LIMIT = 9999 + 1 := by norm_num [LIMIT]
  rw [elo_ratings, hL, elo_loop]
  simp [hbatch]

/-- Witness for C5: the game `(0, 1, -1, 0)` aborts. -/
theorem elo_ratings_neg_abort_witness :
    (∃ g ∈ [Game.mk 0 1 (-1) 0], g.points_a < 0 ∨ g.points_b < 0) ∧
      elo_ratings 2 [Game.mk 0 1 (-1) 0] = none := by
  have h : ∃ g ∈ [Game.mk 0 1 (-1) 0], g.points_a < 0 ∨ g.points_b < 0 :=
    ⟨Game.mk 0 1 (-1) 0, List.mem_singleton_self _, Or.inl (by norm_num)⟩
  exact ⟨h, elo_ratings_neg_abort 2 [Game.mk 0 1 (-1) 0] h⟩

/-! ### C10: valid input never panics -/

theorem elo_loop_isSome (games : List Game) (n : ℕ)
    (hidx : ∀ g ∈ games, g.index_a < n ∧ g.index_b < n)
    (hpts : ∀ g ∈ games, 0 ≤ g.points_a ∧ 0 ≤ g.points_b) :
    ∀ fuel ratings prev, ratings.length = n →
      (elo_loop games fuel ratings prev).isSome := by
  intro fuel
  induction fuel with
  | zero =>
    intro r p _
    rw [elo_loop]
    rfl
  | succ fuel ih =>
    intro r p hlen
    obtain ⟨adj, hadj, hlenadj, -⟩ :=
      batch_adjustments_full r games
        (fun g hg => by rw [hlen]; exact hidx g hg) hpts
    rw [elo_loop]
    simp only [hadj, Option.bind_eq_bind, Option.some_bind]
    by_cases hw : within_epsilon adj
    · rw [if_pos hw]
      rfl
    · rw [if_neg hw]
      apply ih
      rw [List.length_zipWith, hlenadj, hlen]
      exact min_self n

/-- C10: for every team count and every game list with in-bounds indices
and nonnegative points, the driver performs no out-of-bounds access and
never panics: it returns a value (`Ok` or a `ConvergenceFailure`). -/
theorem elo_ratings_safe (n : ℕ) (games : List Game)
    (hidx : ∀ g ∈ games, g.index_a < n ∧ g.index_b < n)
    (hpts : ∀ g ∈ games, 0 ≤ g.points_a ∧ 0 ≤ g.points_b) :
    (elo_ratings n games).isSome :=
  elo_loop_isSome games n hidx hpts LIMIT _ _ (List.length_replicate n 1500)

/-! ### Round iterates of the convergence driver -/

theorem ratings_after_zero (games : List Game) (ratings : List ℝ) :
    ratings_after games ratings 0 = some ratings := rfl

theorem ratings_after_succ (games : List Game) (ratings : List ℝ) (k : ℕ) :
    ratings_after games ratings (k + 1) =
      (ratings_after games ratings k).bind fun r =>
        (batch_adjustments r games).bind fun adj =>
          some (List.zipWith (· + ·) r adj) := rfl

theorem round_adj_zero (games : List Game) (ratings : List ℝ) :
    round_adj games ratings 0 = batch_adjustments ratings games := rfl

theorem ratings_after_shift (games : List Game) (s adj : List ℝ)
    (hb : batch_adjustments s games = some adj) (k : ℕ) :
    ratings_after games s (k + 1) =
      ratings_after games (List.zipWith (· + ·) s adj) k := by
  induction k with
  | zero =>
    rw [ratings_after_succ, ratings_after_zero, ratings_after_zero,
      Option.some_bind, hb, Option.some_bind]
  | succ k ih =>
    rw [ratings_after_succ, ih, ← ratings_after_succ]

theorem round_adj_shift (games : List Game) (s adj : List ℝ)
    (hb : batch_adjustments s games = some adj) (k : ℕ) :
    round_adj games s (k + 1) =
      round_adj games (List.zipWith (· + ·) s adj) k := by
  rw [round_adj, round_adj, ratings_after_shift games s adj hb k]

/-! ### Length and untouched-slot lemmas -/

theorem zipWith_add_get? :
    ∀ (l1 l2 : List ℝ) (i : ℕ) (a b : ℝ),
      l1.get? i = some a → l2.get? i = some b →
      (List.zipWith (· + ·) l1 l2).get? i = some (a + b) := by
  intro l1
  induction l1 with
  | nil => intro l2 i a b h1; exact absurd h1 (by simp)
  | cons x xs ih =>
    intro l2 i a b h1 h2
    cases l2 with
    | nil => exact absurd h2 (by simp)
    | cons y ys =>
      cases i with
      | zero =>
        rw [List.get?] at h1 h2
        cases h1
        cases h2
        rfl
      | succ n =>
        rw [List.get?] at h1 h2
        exact ih ys n a b h1 h2

/-- A successful `game_step` is an `addAt` to each of the two slots. -/
theorem game_step_some_shape (ratings adjustments : List ℝ) (g : Game)
    (adj1 : List ℝ) (h : game_step ratings adjustments g = some adj1) :
    ∃ vA vB, adj1 = addAt (addAt adjustments g.index_a vA) g.index_b vB := by
  rw [game_step] at h
  cases hra : ratings.get? g.index_a with
  | none => rw [hra] at h; exact absurd h (by simp)
  | some ra =>
    rw [hra] at h
    simp only [Option.bind_eq_bind, Option.some_bind] at h
    cases hrb : ratings.get? g.index_b with
    | none => rw [hrb] at h; exact absurd h (by simp)
    | some rb =>
      rw [hrb] at h
      simp only [Option.some_bind] at h
      cases ha : elo_adjustment ⟨ra, g.points_a⟩ ⟨rb, g.points_b⟩ with
      | none => rw [ha] at h; exact absurd h (by simp)
      | some vA =>
        rw [ha] at h
        simp only [Option.some_bind] at h
        cases hb : elo_adjustment ⟨rb, g.points_b⟩ ⟨ra, g.points_a⟩ with
        | none => rw [hb] at h; exact absurd h (by simp)
        | some vB =>
          rw [hb] at h
          simp only [Option.some_bind] at h
          exact ⟨vA, vB, (Option.some_inj.1 h).symm⟩

theorem foldlM_game_step_length (ratings : List ℝ) (games : List Game) :
    ∀ adj0 adj, games.foldlM (game_step ratings) adj0 = some adj →
      adj.length = adj0.length := by
  induction games with
  | nil =>
    intro adj0 adj h
    cases h
    rfl
  | cons g gs ih =>
    intro adj0 adj h
    rw [List.foldlM_cons] at h
    cases hstep : game_step ratings adj0 g with
    | none => rw [hstep] at h; exact absurd h (by simp)
    | some adj1 =>
      rw [hstep] at h
      simp only [Option.bind_eq_bind, Option.some_bind] at h
      obtain ⟨vA, vB, hshape⟩ :=
        game_step_some_shape ratings adj0 g adj1 hstep
      rw [ih adj1 adj h, hshape, addAt_length, addAt_length]

theorem batch_adjustments_length (ratings : List ℝ) (games : List Game)
    (adj : List ℝ) (h : batch_adjustments ratings games = some adj) :
    adj.length = ratings.length := by
  rw [batch_adjustments] at h
  rw [foldlM_game_step_length ratings games _ adj h, List.length_replicate]

theorem ratings_after_length (games : List Game) (s : List ℝ) :
    ∀ k r, ratings_after games s k = some r → r.length = s.length := by
  intro k
  induction k with
  | zero =>
    intro r h
    cases h
    rfl
  | succ k ih =>
    intro r h
    rw [ratings_after_succ] at h
    cases hk : ratings_after games s k with
    | none => rw [hk] at h; exact absurd h (by simp)
    | some r1 =>
      rw [hk] at h
      simp only [Option.some_bind] at h
      cases hb : batch_adjustments r1 games with
      | none => rw [hb] at h; exact absurd h (by simp)
      | some adj =>
        rw [hb] at h
        simp only [Option.some_bind, Option.some_inj] at h
        rw [← h, List.length_zipWith,
          batch_adjustments_length r1 games adj hb, min_self]
        exact ih r1 hk

theorem foldlM_game_step_untouched (ratings : List ℝ) (games : List Game)
    (i : ℕ) (hno : ∀ g ∈ games, g.index_a ≠ i ∧ g.index_b ≠ i) :
    ∀ adj0 adj, games.foldlM (game_step ratings) adj0 = some adj →
      adj.get? i = adj0.get? i := by
  induction games with
  | nil =>
    intro adj0 adj h
    cases h
    rfl
  | cons g gs ih =>
    intro adj0 adj h
    rw [List.foldlM_cons] at h
    cases hstep : game_step ratings adj0 g with
    | none => rw [hstep] at h; exact absurd h (by simp)
    | some adj1 =>
      rw [hstep] at h
      simp only [Option.bind_eq_bind, Option.some_bind] at h
      have hg := hno g (List.mem_cons_self g gs)
      obtain ⟨vA, vB, hshape⟩ :=
        game_step_some_shape ratings adj0 g adj1 hstep
      rw [ih (fun g hm => hno g (List.mem_cons_of_mem _ hm)) adj1 adj h,
        hshape, addAt_get?_ne _ _ _ _ (fun hc => hg.2 hc.symm),
        addAt_get?_ne _ _ _ _ (fun hc => hg.1 hc.symm)]

/-! ### Characterization of the loop outcomes -/

/-- Lemma: `elo_loop` returns `Ok r` exactly when some round `k + 1` within the
fuel is the first whose adjustment vector is within epsilon, and `r` is
the rating vector with that round's adjustments already applied. -/
theorem elo_loop_ok_iff (games : List Game) :
    ∀ (fuel : ℕ) (s prev r : List ℝ),
      elo_loop games fuel s prev = some (Except.ok r) ↔
      ∃ k, k < fuel ∧
        (∃ adj, round_adj games s k = some adj ∧ within_epsilon adj ∧
          ratings_after games s (k + 1) = some r) ∧
        ∀ j, j < k → ∃ adjj, round_adj games s j = some adjj ∧
          ¬ within_epsilon adjj := by
  intro fuel
  induction fuel with
  | zero =>
    intro s prev r
    rw [elo_loop]
    constructor
    · intro h
      exact absurd h (by simp)
    · rintro ⟨k, hk, -, -⟩
      exact absurd hk (Nat.not_lt_zero k)
  | succ fuel ih =>
    intro s prev r
    rw [elo_loop]
    cases hb : batch_adjustments s games with
    | none =>
      simp only [Option.bind_eq_bind, Option.none_bind]
      constructor
      · intro h
        exact absurd h (by simp)
      · rintro ⟨k, hk, ⟨adj, hadj, hw, hr⟩, hprev⟩
        cases k with
        | zero =>
          rw [round_adj_zero, hb] at hadj
          exact absurd hadj (by simp)
        | succ k =>
          obtain ⟨adjj, hadjj, -⟩ := hprev 0 (Nat.succ_pos k)
          rw [round_adj_zero, hb] at hadjj
          exact absurd hadjj (by simp)
    | some adj =>
      simp only [Option.bind_eq_bind, Option.some_bind]
      by_cases hw : within_epsilon adj
      · rw [if_pos hw]
        constructor
        · intro h
          have hr : List.zipWith (· + ·) s adj = r :=
            Except.ok.inj (Option.some_inj.1 h)
          refine ⟨0, Nat.succ_pos fuel,
            ⟨adj, (round_adj_zero games s).trans hb, hw, ?_⟩,
            fun j hj => absurd hj (Nat.not_lt_zero j)⟩
          rw [ratings_after_succ, ratings_after_zero, Option.some_bind, hb,
            Option.some_bind, hr]
        · rintro ⟨k, hk, ⟨adjk, hadjk, hwk, hr⟩, hprev⟩
          cases k with
          | zero =>
            rw [ratings_after_succ, ratings_after_zero, Option.some_bind, hb,
              Option.some_bind] at hr
            rw [Option.some_inj.1 hr]
          | succ k =>
            obtain ⟨adjj, hadjj, hnw⟩ := hprev 0 (Nat.succ_pos k)
            rw [round_adj_zero, hb] at hadjj
            exact absurd (Option.some_inj.1 hadjj ▸ hw) hnw
      · rw [if_neg hw]
        rw [ih (List.zipWith (· + ·) s adj) adj r]
        constructor
        · rintro ⟨k, hk, ⟨adjk, hadjk, hwk, hr⟩, hprev⟩
          refine ⟨k + 1, Nat.succ_lt_succ hk, ⟨adjk, ?_, hwk, ?_⟩, ?_⟩
          · rw [round_adj_shift games s adj hb k]
            exact hadjk
          · rw [ratings_after_shift games s adj hb (k + 1)]
            exact hr
          · intro j hj
            cases j with
            | zero => exact ⟨adj, (round_adj_zero games s).trans hb, hw⟩
            | succ j =>
              obtain ⟨adjj, hadjj, hnwj⟩ :=
                hprev j (Nat.lt_of_succ_lt_succ hj)
              refine ⟨adjj, ?_, hnwj⟩
              rw [round_adj_shift games s adj hb j]
              exact hadjj
        · rintro ⟨k, hk, ⟨adjk, hadjk, hwk, hr⟩, hprev⟩
          cases k with
          | zero =>
            rw [round_adj_zero, hb] at hadjk
            exact absurd (Option.some_inj.1 hadjk ▸ hw) (fun hc => hc hwk)
          | succ k =>
            refine ⟨k, Nat.lt_of_succ_lt_succ hk, ⟨adjk, ?_, hwk, ?_⟩, ?_⟩
            · rw [← round_adj_shift games s adj hb k]
              exact hadjk
            · rw [← ratings_after_shift games s adj hb (k + 1)]
              exact hr
            · intro j hj
              obtain ⟨adjj, hadjj, hnwj⟩ := hprev (j + 1) (Nat.succ_lt_succ hj)
              refine ⟨adjj, ?_, hnwj⟩
              rw [← round_adj_shift games s adj hb j]
              exact hadjj

/-- When `elo_loop` exhausts its fuel it reports `LIMIT` rounds, the
ratings after all `fuel` rounds, and the last round's (unconverged)
adjustment vector. -/
theorem elo_loop_error (games : List Game) :
    ∀ (fuel : ℕ) (s prev : List ℝ) (f : ConvergenceFailure),
      elo_loop games fuel s prev = some (Except.error f) →
      f.rounds = LIMIT ∧ ratings_after games s fuel = some f.last_ratings ∧
        ((fuel = 0 ∧ f.last_adjustments = prev) ∨
          (0 < fuel ∧
            round_adj games s (fuel - 1) = some f.last_adjustments ∧
            ¬ within_epsilon f.last_adjustments)) := by
  intro fuel
  induction fuel with
  | zero =>
    intro s prev f h
    rw [elo_loop] at h
    have hf : ConvergenceFailure.mk LIMIT s prev = f :=
      Except.error.inj (Option.some_inj.1 h)
    rw [← hf]
    exact ⟨rfl, rfl, Or.inl ⟨rfl, rfl⟩⟩
  | succ fuel ih =>
    intro s prev f h
    rw [elo_loop] at h
    cases hb : batch_adjustments s games with
    | none =>
      rw [hb] at h
      exact absurd h (by simp)
    | some adj =>
      rw [hb] at h
      simp only [Option.bind_eq_bind, Option.some_bind] at h
      by_cases hw : within_epsilon adj
      · rw [if_pos hw] at h
        exact absurd h (by simp)
      · rw [if_neg hw] at h
        obtain ⟨hrounds, hratings, hlast⟩ :=
          ih (List.zipWith (· + ·) s adj) adj f h
        refine ⟨hrounds, ?_, ?_⟩
        · rw [ratings_after_shift games s adj hb fuel]
          exact hratings
        · rcases hlast with ⟨hf0, hfa⟩ | ⟨hfpos, hfadj, hfnw⟩
          · subst hf0
            refine Or.inr ⟨Nat.succ_pos 0, ?_, ?_⟩
            · rw [hfa]
              exact (round_adj_zero games s).trans hb
            · rw [hfa]
              exact hw
          · refine Or.inr ⟨Nat.succ_pos fuel, ?_, hfnw⟩
            have hfuel : fuel + 1 - 1 = (fuel - 1) + 1 := by omega
            rw [hfuel, round_adj_shift games s adj hb (fuel - 1)]
            exact hfadj

/-! ### C2: converged exactly when a round's adjustments are all within epsilon -/

/-- C2: the driver starts every competitor at `1500.0` and returns
`Ok r` exactly when some round `k + 1` within the `LIMIT`-round budget is
the first whose adjustment vector is entirely within `EPSILON` in absolute
value, and then `r` is the rating vector with that round's adjustments
already applied (apply-then-check). -/
theorem elo_ratings_converged_iff (n : ℕ) (games : List Game) (r : List ℝ) :
    elo_ratings n games = some (Except.ok r) ↔
      ∃ k, k < LIMIT ∧
        (∃ adj, round_adj games (List.replicate n 1500) k = some adj ∧
          within_epsilon adj ∧
          ratings_after games (List.replicate n 1500) (k + 1) = some r) ∧
        ∀ j, j < k → ∃ adjj,
          round_adj games (List.replicate n 1500) j = some adjj ∧
          ¬ within_epsilon adjj :=
  elo_loop_ok_iff games LIMIT (List.replicate n 1500) (List.replicate n 0) r

/-! ### C3: the shape of a convergence failure -/

/-- C3: a `ConvergenceFailure` reports exactly `10000` rounds, the
ratings after the 10000th round's adjustments were applied, and the
10000th round's adjustment vector, which contains an entry of absolute
value above `EPSILON = 0.01`. -/
theorem elo_ratings_failure_spec (n : ℕ) (games : List Game)
    (f : ConvergenceFailure)
    (h : elo_ratings n games = some (Except.error f)) :
    f.rounds = 10000 ∧
      ratings_after games (List.replicate n 1500) 10000 = some f.last_ratings ∧
      round_adj games (List.replicate n 1500) 9999 = some f.last_adjustments ∧
      ∃ a ∈ f.last_adjustments, EPSILON < |a| := by
  rw [elo_ratings] at h
  obtain ⟨hrounds, hratings, hlast⟩ :=
    elo_loop_error games LIMIT (List.replicate n 1500) (List.replicate n 0) f h
  rcases hlast with ⟨hf0, -⟩ | ⟨-, hfadj, hfnw⟩
  · exact absurd hf0 (by norm_num [LIMIT])
  · refine ⟨hrounds, hratings, hfadj, ?_⟩
    rw [within_epsilon] at hfnw
    push_neg at hfnw
    exact hfnw

/-! ### C7: a competitor with no games keeps adjustment 0 and rating 1500 -/

theorem batch_adjustments_untouched (ratings : List ℝ) (games : List Game)
    (i : ℕ) (hno : ∀ g ∈ games, g.index_a ≠ i ∧ g.index_b ≠ i)
    (adj : List ℝ) (h : batch_adjustments ratings games = some adj) :
    adj.get? i = if i < ratings.length then some 0 else none := by
  rw [batch_adjustments] at h
  rw [foldlM_game_step_untouched ratings games i hno _ adj h, get?_replicate_eq]

/-- C7: a competitor appearing in no game accumulates an adjustment of
exactly `0` from the batch aggregator in every round, its rating is
exactly `1500` after every round, and both facts persist into the final
converged vector or failure bundle. -/
theorem zero_game_competitor (n : ℕ) (games : List Game) (i : ℕ)
    (hi : i < n)
    (hno : ∀ g ∈ games, g.index_a ≠ i ∧ g.index_b ≠ i) :
    (∀ k r, ratings_after games (List.replicate n 1500) k = some r →
      r.get? i = some 1500) ∧
    (∀ k adj, round_adj games (List.replicate n 1500) k = some adj →
      adj.get? i = some 0) ∧
    (∀ r, elo_ratings n games = some (Except.ok r) →
      r.get? i = some 1500) ∧
    (∀ f, elo_ratings n games = some (Except.error f) →
      f.last_ratings.get? i = some 1500 ∧
        f.last_adjustments.get? i = some 0) := by
  have hpart1 : ∀ k r,
      ratings_after games (List.replicate n 1500) k = some r →
        r.get? i = some 1500 := by
    intro k
    induction k with
    | zero =>
      intro r h
      cases h
      rw [get?_replicate_eq, if_pos hi]
    | succ k ih =>
      intro r h
      rw [ratings_after_succ] at h
      cases hk : ratings_after games (List.replicate n 1500) k with
      | none => rw [hk] at h; exact absurd h (by simp)
      | some r1 =>
        rw [hk] at h
        simp only [Option.some_bind] at h
        cases hb : batch_adjustments r1 games with
        | none => rw [hb] at h; exact absurd h (by simp)
        | some adj =>
          rw [hb] at h
          simp only [Option.some_bind, Option.some_inj] at h
          have hlen : r1.length = n := by
            rw [ratings_after_length games _ k r1 hk, List.length_replicate]
          have hadj : adj.get? i = some 0 := by
            rw [batch_adjustments_untouched r1 games i hno adj hb,
              if_pos (by rw [hlen]; exact hi)]
          rw [← h, zipWith_add_get? r1 adj i 1500 0 (ih r1 hk) hadj]
          norm_num
  have hpart2 : ∀ k adj,
      round_adj games (List.replicate n 1500) k = some adj →
        adj.get? i = some 0 := by
    intro k adj h
    rw [round_adj] at h
    cases hk : ratings_after games (List.replicate n 1500) k with
    | none => rw [hk] at h; exact absurd h (by simp)
    | some r1 =>
      rw [hk] at h
      simp only [Option.some_bind] at h
      have hlen : r1.length = n := by
        rw [ratings_after_length games _ k r1 hk, List.length_replicate]
      rw [batch_adjustments_untouched r1 games i hno adj h,
        if_pos (by rw [hlen]; exact hi)]
  refine ⟨hpart1, hpart2, ?_, ?_⟩
  · intro r h
    rw [elo_ratings,
      elo_loop_ok_iff games LIMIT (List.replicate n 1500)
        (List.replicate n 0) r] at h
    obtain ⟨k, -, ⟨adj, -, -, hr⟩, -⟩ := h
    exact hpart1 (k + 1) r hr
  · intro f h
    rw [elo_ratings] at h
    obtain ⟨-, hratings, hlast⟩ :=
      elo_loop_error games LIMIT (List.replicate n 1500)
        (List.replicate n 0) f h
    refine ⟨hpart1 LIMIT f.last_ratings hratings, ?_⟩
    rcases hlast with ⟨hf0, -⟩ | ⟨-, hfadj, -⟩
    · exact absurd hf0 (by norm_num [LIMIT])
    · exact hpart2 (LIMIT - 1) f.last_adjustments hfadj

/-- Witness for C7 at two teams, no games, competitor `1`. -/
theorem zero_game_competitor_witness :
    1 < 2 ∧ (∀ g ∈ ([] : List Game), g.index_a ≠ 1 ∧ g.index_b ≠ 1) ∧
    ((∀ k r, ratings_after [] (List.replicate 2 1500) k = some r →
      r.get? 1 = some 1500) ∧
    (∀ k adj, round_adj [] (List.replicate 2 1500) k = some adj →
      adj.get? 1 = some 0) ∧
    (∀ r, elo_ratings 2 [] = some (Except.ok r) →
      r.get? 1 = some 1500) ∧
    (∀ f, elo_ratings 2 [] = some (Except.error f) →
      f.last_ratings.get? 1 = some 1500 ∧
        f.last_adjustments.get? 1 = some 0)) :=
  ⟨by norm_num, fun g hg => absurd hg (List.not_mem_nil g),
    zero_game_competitor 2 [] 1 (by norm_num)
      (fun g hg => absurd hg (List.not_mem_nil g))⟩

/-! ### Two-player reduction: the driver on `[r0, r1]` is a gap dynamic -/

theorem gapFrom_zero (games : List Game) (x : ℝ) : gapFrom games x 0 = x :=
  rfl

theorem gapFrom_succ (games : List Game) (x : ℝ) (k : ℕ) :
    gapFrom games x (k + 1) =
      gapFrom games x k + 2 * gapAdj games (gapFrom games x k) := rfl

theorem gapFrom_shift (games : List Game) (x : ℝ) :
    ∀ k, gapFrom games x (k + 1) =
      gapFrom games (x + 2 * gapAdj games x) k := by
  intro k
  induction k with
  | zero => rfl
  | succ k ih => rw [gapFrom_succ, ih, ← gapFrom_succ]

theorem qval_sub_mul (a b : ℝ) : qval (a - b) * qval b = qval a := by
  rw [qval, qval, qval, ← Real.rpow_add (by norm_num : (0 : ℝ) < 10)]
  congr 1
  ring

theorem Egap_eq (r0 r1 : ℝ) :
    qval r0 / (qval r0 + qval r1) = Egap (r0 - r1) := by
  have hc := qval_pos r1
  have hA := qval_pos (r0 - r1)
  rw [Egap, ← qval_sub_mul r0 r1]
  rw [div_eq_div_iff (by positivity) (by positivity)]
  ring

/-- One `game_step` of a two-player game on the state `[u, v]`. -/
theorem game_step_two (r0 r1 u v : ℝ) (g : Game)
    (hg : g.index_a = 0 ∧ g.index_b = 1 ∧ 0 ≤ g.points_a ∧
      0 ≤ g.points_b ∧ 0 < g.points_a + g.points_b) :
    game_step [r0, r1] [u, v] g =
      some [u + 10 * (g.points_a / (g.points_a + g.points_b)
          - Egap (r0 - r1)),
        v - 10 * (g.points_a / (g.points_a + g.points_b)
          - Egap (r0 - r1))] := by
  obtain ⟨ha, hb, hpa, hpb, hs⟩ := hg
  have hs0 : ¬(g.points_a = 0 ∧ g.points_b = 0) := by
    rintro ⟨h1, h2⟩
    rw [h1, h2] at hs
    norm_num at hs
  have hqs : 0 < qval r0 + qval r1 := by
    have := qval_pos r0
    have := qval_pos r1
    linarith
  have hval_a : pairAdj r0 r1 g.points_a g.points_b =
      10 * (g.points_a / (g.points_a + g.points_b) - Egap (r0 - r1)) := by
    rw [pairAdj, if_neg hs0, K, Egap_eq r0 r1]
  have hval_b : pairAdj r1 r0 g.points_b g.points_a =
      -(10 * (g.points_a / (g.points_a + g.points_b) - Egap (r0 - r1))) := by
    have hs0' : ¬(g.points_b = 0 ∧ g.points_a = 0) := fun h => hs0 ⟨h.2, h.1⟩
    rw [pairAdj, if_neg hs0', K, ← Egap_eq r0 r1]
    have hsne : g.points_a + g.points_b ≠ 0 := ne_of_gt hs
    have hsne' : g.points_b + g.points_a ≠ 0 := by rw [add_comm]; exact hsne
    have hq0 : qval r0 + qval r1 ≠ 0 := ne_of_gt hqs
    have hq0' : qval r1 + qval r0 ≠ 0 := by rw [add_comm]; exact hq0
    field_simp
    ring
  rw [game_step, ha, hb]
  simp only [List.get?_cons_zero, List.get?_cons_succ, Option.bind_eq_bind,
    Option.some_bind,
    elo_adjustment_eq_pairAdj r0 r1 g.points_a g.points_b hpa hpb,
    elo_adjustment_eq_pairAdj r1 r0 g.points_b g.points_a hpb hpa,
    hval_a, hval_b, addAt]
  refine congrArg some ?_
  rw [List.cons.injEq]
  refine ⟨rfl, ?_⟩
  rw [List.cons.injEq]
  exact ⟨by ring, rfl⟩

theorem actual_sum_cons (g : Game) (gs : List Game) :
    actual_sum (g :: gs) =
      g.points_a / (g.points_a + g.points_b) + actual_sum gs := by
  simp [actual_sum]

/-- Folding the whole two-player game list from the antisymmetric state
`[c, -c]` yields the antisymmetric state shifted by the total gap
adjustment. -/
theorem foldlM_two (r0 r1 : ℝ) (games : List Game) (h2 : two_player games) :
    ∀ c : ℝ, games.foldlM (game_step [r0, r1]) [c, -c] =
      some [c + 10 * (actual_sum games - games.length * Egap (r0 - r1)),
        -(c + 10 * (actual_sum games - games.length * Egap (r0 - r1)))] := by
  induction games with
  | nil =>
    intro c
    show some [c, -c] = _
    rw [Option.some_inj]
    have h0 : actual_sum [] = 0 := rfl
    rw [h0]
    norm_num
  | cons g gs ih =>
    intro c
    rw [List.foldlM_cons,
      game_step_two r0 r1 c (-c) g (h2 g (List.mem_cons_self g gs))]
    simp only [Option.bind_eq_bind, Option.some_bind]
    have hneg : -c - 10 * (g.points_a / (g.points_a + g.points_b)
        - Egap (r0 - r1)) =
        -(c + 10 * (g.points_a / (g.points_a + g.points_b)
          - Egap (r0 - r1))) := by
      ring
    rw [hneg, ih (fun g hm => h2 g (List.mem_cons_of_mem _ hm))]
    have hval : c + 10 * (g.points_a / (g.points_a + g.points_b)
          - Egap (r0 - r1)) +
        10 * (actual_sum gs - gs.length * Egap (r0 - r1)) =
        c + 10 * (actual_sum (g :: gs)
          - (g :: gs).length * Egap (r0 - r1)) := by
      rw [actual_sum_cons, List.length_cons]
      push_cast
      ring
    rw [hval]

theorem batch_two (games : List Game) (h2 : two_player games) (r0 r1 : ℝ) :
    batch_adjustments [r0, r1] games =
      some [gapAdj games (r0 - r1), -(gapAdj games (r0 - r1))] := by
  rw [batch_adjustments]
  have h00 : List.replicate ([r0, r1].length) (0 : ℝ) = [(0 : ℝ), -0] := by
    rw [neg_zero]
    rfl
  rw [h00, foldlM_two r0 r1 games h2 0, gapAdj]
  norm_num

theorem batch_stg (games : List Game) (h2 : two_player games) (x : ℝ) :
    batch_adjustments (stg x) games =
      some [gapAdj games x, -(gapAdj games x)] := by
  rw [stg, batch_two games h2 (1500 + x / 2) (1500 - x / 2),
    show 1500 + x / 2 - (1500 - x / 2) = x from by ring]

theorem within_pair (a : ℝ) :
    within_epsilon [a, -a] ↔ |a| ≤ EPSILON := by
  simp [within_epsilon, abs_neg]

theorem stg_step (x a : ℝ) :
    List.zipWith (· + ·) (stg x) [a, -a] = stg (x + 2 * a) := by
  show [1500 + x / 2 + a, 1500 - x / 2 + -a] = stg (x + 2 * a)
  rw [stg, show 1500 + x / 2 + a = 1500 + (x + 2 * a) / 2 from by ring,
    show 1500 - x / 2 + -a = 1500 - (x + 2 * a) / 2 from by ring]

/-- If the gap dynamic converges at some round within the fuel, the loop
returns `Ok` at a symmetric state further along the gap orbit. -/
theorem elo_loop_two_ok (games : List Game) (h2 : two_player games) :
    ∀ (fuel : ℕ) (x : ℝ) (prev : List ℝ),
      (∃ m, m < fuel ∧ |gapAdj games (gapFrom games x m)| ≤ EPSILON) →
      ∃ m', m' < fuel ∧ elo_loop games fuel (stg x) prev =
        some (Except.ok (stg (gapFrom games x (m' + 1)))) := by
  intro fuel
  induction fuel with
  | zero =>
    rintro x prev ⟨m, hm, -⟩
    exact absurd hm (Nat.not_lt_zero m)
  | succ fuel ih =>
    rintro x prev ⟨m, hm, hconv⟩
    rw [elo_loop, batch_stg games h2 x]
    simp only [Option.bind_eq_bind, Option.some_bind]
    by_cases hw : within_epsilon [gapAdj games x, -(gapAdj games x)]
    · refine ⟨0, Nat.succ_pos fuel, ?_⟩
      rw [if_pos hw, stg_step, gapFrom_succ, gapFrom_zero]
    · rw [if_neg hw]
      cases m with
      | zero =>
        rw [gapFrom_zero] at hconv
        exact absurd ((within_pair (gapAdj games x)).2 hconv) hw
      | succ m =>
        rw [gapFrom_shift] at hconv
        obtain ⟨m', hm', hloop⟩ :=
          ih (x + 2 * gapAdj games x) [gapAdj games x, -(gapAdj games x)]
            ⟨m, Nat.lt_of_succ_lt_succ hm, hconv⟩
        refine ⟨m' + 1, Nat.succ_lt_succ hm', ?_⟩
        rw [stg_step, gapFrom_shift games x (m' + 1)]
        exact hloop

/-- If the gap dynamic stays out of tolerance for the whole fuel, the
loop returns a `ConvergenceFailure`. -/
theorem elo_loop_two_error (games : List Game) (h2 : two_player games) :
    ∀ (fuel : ℕ) (x : ℝ) (prev : List ℝ),
      (∀ m, m < fuel → ¬ |gapAdj games (gapFrom games x m)| ≤ EPSILON) →
      ∃ f, elo_loop games fuel (stg x) prev = some (Except.error f) := by
  intro fuel
  induction fuel with
  | zero =>
    intro x prev _
    exact ⟨⟨LIMIT, stg x, prev⟩, rfl⟩
  | succ fuel ih =>
    intro x prev hnc
    rw [elo_loop, batch_stg games h2 x]
    simp only [Option.bind_eq_bind, Option.some_bind]
    have hw : ¬ within_epsilon [gapAdj games x, -(gapAdj games x)] := by
      intro hc
      exact hnc 0 (Nat.succ_pos fuel)
        (by rw [gapFrom_zero]; exact (within_pair (gapAdj games x)).1 hc)
    rw [if_neg hw, stg_step]
    apply ih (x + 2 * gapAdj games x)
    intro m hm
    rw [← gapFrom_shift]
    exact hnc (m + 1) (Nat.succ_lt_succ hm)

/-! ### Monotonicity and bounds for `qval` and `Egap` -/

theorem qval_mono {x y : ℝ} (h : x ≤ y) : qval x ≤ qval y := by
  rw [qval, qval]
  exact (Real.rpow_le_rpow_left_iff (by norm_num : (1 : ℝ) < 10)).2
    (by linarith)

theorem qval_zero : qval 0 = 1 := by
  rw [qval]
  norm_num

theorem qval_neg_eq (x : ℝ) : qval (-x) = (qval x)⁻¹ := by
  rw [qval, qval, neg_div, Real.rpow_neg (by norm_num : (0 : ℝ) ≤ 10)]

theorem Egap_pos (x : ℝ) : 0 < Egap x := by
  have h := qval_pos x
  rw [Egap]
  positivity

theorem Egap_lt_one (x : ℝ) : Egap x < 1 := by
  have h := qval_pos x
  rw [Egap, div_lt_one (by linarith)]
  linarith

theorem Egap_zero : Egap 0 = 1 / 2 := by
  rw [Egap, qval_zero]
  norm_num

theorem Egap_mono {x y : ℝ} (h : x ≤ y) : Egap x ≤ Egap y := by
  have hx := qval_pos x
  have hy := qval_pos y
  have hq := qval_mono h
  rw [Egap, Egap, div_le_div_iff (by linarith) (by linarith)]
  nlinarith

theorem Egap_le_qval (x : ℝ) : Egap x ≤ qval x := by
  have hx := qval_pos x
  rw [Egap, div_le_iff (by linarith)]
  nlinarith

theorem one_sub_Egap (x : ℝ) : 1 - Egap x = 1 / (qval x + 1) := by
  have hx := qval_pos x
  rw [Egap]
  field_simp

theorem one_sub_Egap_le (x : ℝ) : 1 - Egap x ≤ qval (-x) := by
  have hx := qval_pos x
  rw [one_sub_Egap, qval_neg_eq, ← one_div]
  exact one_div_le_one_div_of_le hx (by linarith)

/-! ### C9: the concrete two-competitor scenario converges -/

theorem games9_two_player : two_player games9 := by
  intro g hg
  rw [games9, List.mem_singleton] at hg
  subst hg
  exact ⟨rfl, rfl, by norm_num, le_refl 0, by norm_num⟩

theorem gapAdj9 (x : ℝ) : gapAdj games9 x = 10 * (1 - Egap x) := by
  have h1 : actual_sum games9 = 1 := by
    rw [games9, actual_sum]
    norm_num
  have h2 : ((games9.length : ℕ) : ℝ) = 1 := by
    rw [games9]
    norm_num
  rw [gapAdj, h1, h2]
  ring

theorem gapAdj9_div (x : ℝ) :
    gapAdj games9 x = 10 / (qval x + 1) := by
  rw [gapAdj9, one_sub_Egap, mul_one_div]

theorem gapAdj9_pos (x : ℝ) : 0 < gapAdj games9 x := by
  have h := qval_pos x
  rw [gapAdj9_div]
  positivity

theorem g9_succ (k : ℕ) :
    g9 (k + 1) = g9 k + 2 * gapAdj games9 (g9 k) := rfl

theorem g9_nonneg : ∀ k, 0 ≤ g9 k := by
  intro k
  induction k with
  | zero => exact le_refl 0
  | succ k ih =>
    have := gapAdj9_pos (g9 k)
    rw [g9_succ]
    linarith

theorem g9_le_succ (k : ℕ) : g9 k ≤ g9 (k + 1) := by
  have := gapAdj9_pos (g9 k)
  rw [g9_succ]
  linarith

/-- Segment climb: while the gap is below `d`, every round adds at least
`20 / (B + 1)` where `B` bounds `qval d`; so `m` rounds with
`m * (20 / (B + 1)) ≥ d - c` lift the gap from `c` to `d`. -/
theorem g9_climb (c d B : ℝ) (k m : ℕ)
    (hc : c ≤ g9 k) (hdB : qval d ≤ B)
    (hm : d - c ≤ m * (20 / (B + 1))) :
    d ≤ g9 (k + m) := by
  have hdpos := qval_pos d
  have hBpos : 0 < B + 1 := by linarith
  have key : ∀ j : ℕ, min d (c + j * (20 / (B + 1))) ≤ g9 (k + j) := by
    intro j
    induction j with
    | zero =>
      have h0 : c + (0 : ℕ) * (20 / (B + 1)) = c := by norm_num
      rw [h0]
      exact le_trans (min_le_right d c) hc
    | succ j ih =>
      by_cases hcase : d ≤ g9 (k + j)
      · refine le_trans (min_le_left _ _) (le_trans hcase ?_)
        exact g9_le_succ (k + j)
      · push_neg at hcase
        have hlow : c + j * (20 / (B + 1)) ≤ g9 (k + j) := by
          rcases le_or_lt d (c + j * (20 / (B + 1))) with h | h
          · rw [min_eq_left h] at ih
            exact absurd ih (not_le.2 hcase)
          · rw [min_eq_right (le_of_lt h)] at ih
            exact ih
        have hQ : qval (g9 (k + j)) ≤ B :=
          le_trans (qval_mono (le_of_lt hcase)) hdB
        have hQpos := qval_pos (g9 (k + j))
        have hstep : 20 / (B + 1) ≤ 2 * gapAdj games9 (g9 (k + j)) := by
          rw [gapAdj9_div, div_le_iff hBpos]
          have he : 2 * (10 / (qval (g9 (k + j)) + 1)) * (B + 1) =
              20 * (B + 1) / (qval (g9 (k + j)) + 1) := by
            ring
          rw [he, le_div_iff (by linarith)]
          nlinarith
        refine le_trans (min_le_right _ _) ?_
        have hg : g9 (k + (j + 1)) = g9 (k + j) + 2 * gapAdj games9 (g9 (k + j)) := by
          rw [← Nat.add_assoc]
          exact g9_succ (k + j)
        rw [hg]
        push_cast
        push_cast at hlow
        linarith
  have h := key m
  rw [min_eq_left (by linarith)] at h
  exact h

/-- Rational upper bound for `qval` at multiples of `40`:
`10 ^ (1/10) ≤ 1.259`. -/
theorem qval_le_pow_appr (i : ℕ) (x : ℝ) (hx : x ≤ 40 * i) :
    qval x ≤ (1259 / 1000 : ℝ) ^ i := by
  have h10 : (0 : ℝ) ≤ 10 := by norm_num
  refine le_trans (qval_mono hx) ?_
  have hu : (10 : ℝ) ^ ((1 : ℝ) / 10) ≤ 1259 / 1000 := by
    have hpow : ((10 : ℝ) ^ ((1 : ℝ) / 10)) ^ (10 : ℕ) = 10 := by
      rw [← Real.rpow_natCast ((10 : ℝ) ^ ((1 : ℝ) / 10)) 10,
        ← Real.rpow_mul h10]
      norm_num
    have h2 : ((10 : ℝ) ^ ((1 : ℝ) / 10)) ^ (10 : ℕ) ≤
        (1259 / 1000 : ℝ) ^ (10 : ℕ) := by
      rw [hpow]
      norm_num
    exact le_of_pow_le_pow_left (by norm_num) (by norm_num) h2
  have h3 : qval (40 * i) = ((10 : ℝ) ^ ((1 : ℝ) / 10)) ^ i := by
    rw [qval, ← Real.rpow_natCast ((10 : ℝ) ^ ((1 : ℝ) / 10)) i,
      ← Real.rpow_mul h10]
    congr 1
    ring
  rw [h3]
  exact pow_le_pow_left (Real.rpow_nonneg h10 _) hu i

theorem g9_reaches_1200 : (1200 : ℝ) ≤ g9 9807 := by
  have hs0 : (0 : ℝ) ≤ g9 0 := le_refl 0
  have hs1 : (40 : ℝ) ≤ g9 5 :=
    g9_climb 0 40 ((1259 / 1000 : ℝ) ^ 1) 0 5 hs0
      (qval_le_pow_appr 1 40 (by norm_num)) (by norm_num)
  have hs2 : (80 : ℝ) ≤ g9 11 :=
    g9_climb 40 80 ((1259 / 1000 : ℝ) ^ 2) 5 6 hs1
      (qval_le_pow_appr 2 80 (by norm_num)) (by norm_num)
  have hs3 : (120 : ℝ) ≤ g9 17 :=
    g9_climb 80 120 ((1259 / 1000 : ℝ) ^ 3) 11 6 hs2
      (qval_le_pow_appr 3 120 (by norm_num)) (by norm_num)
  have hs4 : (160 : ℝ) ≤ g9 25 :=
    g9_climb 120 160 ((1259 / 1000 : ℝ) ^ 4) 17 8 hs3
      (qval_le_pow_appr 4 160 (by norm_num)) (by norm_num)
  have hs5 : (200 : ℝ) ≤ g9 34 :=
    g9_climb 160 200 ((1259 / 1000 : ℝ) ^ 5) 25 9 hs4
      (qval_le_pow_appr 5 200 (by norm_num)) (by norm_num)
  have hs6 : (240 : ℝ) ≤ g9 44 :=
    g9_climb 200 240 ((1259 / 1000 : ℝ) ^ 6) 34 10 hs5
      (qval_le_pow_appr 6 240 (by norm_num)) (by norm_num)
  have hs7 : (280 : ℝ) ≤ g9 57 :=
    g9_climb 240 280 ((1259 / 1000 : ℝ) ^ 7) 44 13 hs6
      (qval_le_pow_appr 7 280 (by norm_num)) (by norm_num)
  have hs8 : (320 : ℝ) ≤ g9 72 :=
    g9_climb 280 320 ((1259 / 1000 : ℝ) ^ 8) 57 15 hs7
      (qval_le_pow_appr 8 320 (by norm_num)) (by norm_num)
  have hs9 : (360 : ℝ) ≤ g9 90 :=
    g9_climb 320 360 ((1259 / 1000 : ℝ) ^ 9) 72 18 hs8
      (qval_le_pow_appr 9 360 (by norm_num)) (by norm_num)
  have hs10 : (400 : ℝ) ≤ g9 113 :=
    g9_climb 360 400 ((1259 / 1000 : ℝ) ^ 10) 90 23 hs9
      (qval_le_pow_appr 10 400 (by norm_num)) (by norm_num)
  have hs11 : (440 : ℝ) ≤ g9 141 :=
    g9_climb 400 440 ((1259 / 1000 : ℝ) ^ 11) 113 28 hs10
      (qval_le_pow_appr 11 440 (by norm_num)) (by norm_num)
  have hs12 : (480 : ℝ) ≤ g9 175 :=
    g9_climb 440 480 ((1259 / 1000 : ℝ) ^ 12) 141 34 hs11
      (qval_le_pow_appr 12 480 (by norm_num)) (by norm_num)
  have hs13 : (520 : ℝ) ≤ g9 217 :=
    g9_climb 480 520 ((1259 / 1000 : ℝ) ^ 13) 175 42 hs12
      (qval_le_pow_appr 13 520 (by norm_num)) (by norm_num)
  have hs14 : (560 : ℝ) ≤ g9 270 :=
    g9_climb 520 560 ((1259 / 1000 : ℝ) ^ 14) 217 53 hs13
      (qval_le_pow_appr 14 560 (by norm_num)) (by norm_num)
  have hs15 : (600 : ℝ) ≤ g9 336 :=
    g9_climb 560 600 ((1259 / 1000 : ℝ) ^ 15) 270 66 hs14
      (qval_le_pow_appr 15 600 (by norm_num)) (by norm_num)
  have hs16 : (640 : ℝ) ≤ g9 418 :=
    g9_climb 600 640 ((1259 / 1000 : ℝ) ^ 16) 336 82 hs15
      (qval_le_pow_appr 16 640 (by norm_num)) (by norm_num)
  have hs17 : (680 : ℝ) ≤ g9 521 :=
    g9_climb 640 680 ((1259 / 1000 : ℝ) ^ 17) 418 103 hs16
      (qval_le_pow_appr 17 680 (by norm_num)) (by norm_num)
  have hs18 : (720 : ℝ) ≤ g9 650 :=
    g9_climb 680 720 ((1259 / 1000 : ℝ) ^ 18) 521 129 hs17
      (qval_le_pow_appr 18 720 (by norm_num)) (by norm_num)
  have hs19 : (760 : ℝ) ≤ g9 812 :=
    g9_climb 720 760 ((1259 / 1000 : ℝ) ^ 19) 650 162 hs18
      (qval_le_pow_appr 19 760 (by norm_num)) (by norm_num)
  have hs20 : (800 : ℝ) ≤ g9 1015 :=
    g9_climb 760 800 ((1259 / 1000 : ℝ) ^ 20) 812 203 hs19
      (qval_le_pow_appr 20 800 (by norm_num)) (by norm_num)
  have hs21 : (840 : ℝ) ≤ g9 1270 :=
    g9_climb 800 840 ((1259 / 1000 : ℝ) ^ 21) 1015 255 hs20
      (qval_le_pow_appr 21 840 (by norm_num)) (by norm_num)
  have hs22 : (880 : ℝ) ≤ g9 1590 :=
    g9_climb 840 880 ((1259 / 1000 : ℝ) ^ 22) 1270 320 hs21
      (qval_le_pow_appr 22 880 (by norm_num)) (by norm_num)
  have hs23 : (920 : ℝ) ≤ g9 1992 :=
    g9_climb 880 920 ((1259 / 1000 : ℝ) ^ 23) 1590 402 hs22
      (qval_le_pow_appr 23 920 (by norm_num)) (by norm_num)
  have hs24 : (960 : ℝ) ≤ g9 2498 :=
    g9_climb 920 960 ((1259 / 1000 : ℝ) ^ 24) 1992 506 hs23
      (qval_le_pow_appr 24 960 (by norm_num)) (by norm_num)
  have hs25 : (1000 : ℝ) ≤ g9 3134 :=
    g9_climb 960 1000 ((1259 / 1000 : ℝ) ^ 25) 2498 636 hs24
      (qval_le_pow_appr 25 1000 (by norm_num)) (by norm_num)
  have hs26 : (1040 : ℝ) ≤ g9 3934 :=
    g9_climb 1000 1040 ((1259 / 1000 : ℝ) ^ 26) 3134 800 hs25
      (qval_le_pow_appr 26 1040 (by norm_num)) (by norm_num)
  have hs27 : (1080 : ℝ) ≤ g9 4940 :=
    g9_climb 1040 1080 ((1259 / 1000 : ℝ) ^ 27) 3934 1006 hs26
      (qval_le_pow_appr 27 1080 (by norm_num)) (by norm_num)
  have hs28 : (1120 : ℝ) ≤ g9 6207 :=
    g9_climb 1080 1120 ((1259 / 1000 : ℝ) ^ 28) 4940 1267 hs27
      (qval_le_pow_appr 28 1120 (by norm_num)) (by norm_num)
  have hs29 : (1160 : ℝ) ≤ g9 7801 :=
    g9_climb 1120 1160 ((1259 / 1000 : ℝ) ^ 29) 6207 1594 hs28
      (qval_le_pow_appr 29 1160 (by norm_num)) (by norm_num)
  have hs30 : (1200 : ℝ) ≤ g9 9807 :=
    g9_climb 1160 1200 ((1259 / 1000 : ℝ) ^ 30) 7801 2006 hs29
      (qval_le_pow_appr 30 1200 (by norm_num)) (by norm_num)
  exact hs30

theorem g9_trigger : |gapAdj games9 (g9 9807)| ≤ EPSILON := by
  have h1200 : qval 1200 = 1000 := by
    rw [qval, show (1200 : ℝ) / 400 = ((3 : ℕ) : ℝ) from by norm_num,
      Real.rpow_natCast]
    norm_num
  have hq : (999 : ℝ) ≤ qval (g9 9807) := by
    have h2 := qval_mono g9_reaches_1200
    rw [h1200] at h2
    linarith
  have hpos := qval_pos (g9 9807)
  rw [gapAdj9_div, abs_of_pos (by positivity), EPSILON,
    div_le_iff (by linarith)]
  linarith

/-- C9: for two competitors and the single game `(a, b, 1.0, 0.0)`,
round 1 produces adjustments `5.0` and `-5.0` and ratings `1505.0` and
`1495.0`, and the driver returns `Converged` within the round limit with
final ratings `a > 1500 > b`. -/
theorem two_player_scenario :
    batch_adjustments [1500, 1500] games9 = some [5, -5] ∧
    ratings_after games9 (List.replicate 2 1500) 1 = some [1505, 1495] ∧
    ∃ ra rb, elo_ratings 2 games9 = some (Except.ok [ra, rb]) ∧
      1500 < ra ∧ rb < 1500 := by
  have hstg0 : stg 0 = [(1500 : ℝ), 1500] := by
    rw [stg]
    norm_num
  have hadj0 : gapAdj games9 0 = 5 := by
    rw [gapAdj9, Egap_zero]
    norm_num
  have hbatch : batch_adjustments [1500, 1500] games9 = some [5, -5] := by
    rw [← hstg0, batch_stg games9 games9_two_player 0, hadj0]
  refine ⟨hbatch, ?_, ?_⟩
  · rw [ratings_after_succ, ratings_after_zero, Option.some_bind,
      show List.replicate 2 (1500 : ℝ) = [1500, 1500] from rfl, hbatch,
      Option.some_bind]
    show some [(1500 : ℝ) + 5, 1500 + -5] = some [1505, 1495]
    norm_num
  · obtain ⟨m', hm', hloop⟩ :=
      elo_loop_two_ok games9 games9_two_player LIMIT 0 (List.replicate 2 0)
        ⟨9807, by norm_num [LIMIT], g9_trigger⟩
    have hg : 0 < g9 (m' + 1) := by
      have h1 := g9_nonneg m'
      have h2 := gapAdj9_pos (g9 m')
      rw [g9_succ]
      linarith
    refine ⟨1500 + g9 (m' + 1) / 2, 1500 - g9 (m' + 1) / 2, ?_,
      by linarith, by linarith⟩
    rw [elo_ratings,
      show List.replicate 2 (1500 : ℝ) = stg 0 from hstg0.symm]
    exact hloop

/-! ### A provably non-convergent input

One decisive game plus `400000` drawn games between the same two players.
The huge draw weight makes the simultaneous update overshoot: the gap
oscillates between roughly `-1.15e5` and `+3.9e6` with adjustments of
order `2e6` every round, so the driver exhausts its `10000` rounds. -/

theorem oscGames_two_player : two_player oscGames := by
  intro g hg
  rw [oscGames, List.mem_cons] at hg
  rcases hg with he | hm
  · subst he
    exact ⟨rfl, rfl, by norm_num, le_refl 0, by norm_num⟩
  · rw [List.eq_of_mem_replicate hm]
    exact ⟨rfl, rfl, by norm_num, by norm_num, by norm_num⟩

theorem actual_sum_replicate (n : ℕ) (g : Game) :
    actual_sum (List.replicate n g) =
      n * (g.points_a / (g.points_a + g.points_b)) := by
  rw [actual_sum, List.map_replicate, List.sum_replicate, nsmul_eq_mul]

theorem gapAdjOsc (x : ℝ) :
    gapAdj oscGames x = 10 * (200001 - 400001 * Egap x) := by
  have h1 : actual_sum oscGames = 200001 := by
    rw [oscGames, actual_sum_cons, actual_sum_replicate]
    norm_num
  have h2 : ((oscGames.length : ℕ) : ℝ) = 400001 := by
    rw [oscGames, List.length_cons, List.length_replicate]
    norm_num
  rw [gapAdj, h1, h2]

theorem qval_15000 : ((10 : ℝ) ^ (37 : ℕ)) ≤ qval 15000 := by
  have h : qval 14800 = (10 : ℝ) ^ (37 : ℕ) := by
    rw [qval, show (14800 : ℝ) / 400 = ((37 : ℕ) : ℝ) from by norm_num,
      Real.rpow_natCast]
  rw [← h]
  exact qval_mono (by norm_num)

theorem Egap_far_neg {x : ℝ} (hx : x ≤ -15000) :
    Egap x ≤ 1 / 10 ^ 37 := by
  have h1 : Egap x ≤ qval x := Egap_le_qval x
  have h2 : qval x ≤ qval (-15000) := qval_mono hx
  have h3 : qval (-15000) = (qval 15000)⁻¹ := qval_neg_eq 15000
  have h4 : (qval 15000)⁻¹ ≤ ((10 : ℝ) ^ (37 : ℕ))⁻¹ :=
    inv_le_inv_of_le (by positivity) qval_15000
  rw [← one_div ((10 : ℝ) ^ (37 : ℕ))] at h4
  linarith [h1, h2, h3 ▸ h2, h4]

theorem Egap_far_pos {y : ℝ} (hy : 15000 ≤ y) :
    1 - Egap y ≤ 1 / 10 ^ 37 := by
  have h1 : 1 - Egap y ≤ qval (-y) := one_sub_Egap_le y
  have h2 : qval (-y) ≤ qval (-15000) := qval_mono (by linarith)
  have h3 : qval (-15000) = (qval 15000)⁻¹ := qval_neg_eq 15000
  have h4 : (qval 15000)⁻¹ ≤ ((10 : ℝ) ^ (37 : ℕ))⁻¹ :=
    inv_le_inv_of_le (by positivity) qval_15000
  rw [← one_div ((10 : ℝ) ^ (37 : ℕ))] at h4
  rw [h3] at h2
  linarith

theorem oscF_down {x : ℝ} (hx : x ≤ -15000) :
    2000010 - 1 / 10 ^ 30 ≤ gapAdj oscGames x ∧
      gapAdj oscGames x ≤ 2000010 := by
  have hE := Egap_pos x
  have hEl := Egap_far_neg hx
  rw [gapAdjOsc]
  constructor
  · have h1 : (400001 : ℝ) * Egap x ≤ 400001 * (1 / 10 ^ 37) :=
      mul_le_mul_of_nonneg_left hEl (by norm_num)
    have h2 : (400001 : ℝ) * (1 / 10 ^ 37) ≤ (1 / 10 ^ 30) / 10 := by
      norm_num
    linarith
  · have h1 : (0 : ℝ) < 400001 * Egap x := by positivity
    linarith

theorem oscF_up {y : ℝ} (hy : 15000 ≤ y) :
    -2000000 ≤ gapAdj oscGames y ∧
      gapAdj oscGames y ≤ -2000000 + 1 / 10 ^ 30 := by
  have hE1 := Egap_lt_one y
  have hEu := Egap_far_pos hy
  rw [gapAdjOsc]
  constructor
  · have h1 : (400001 : ℝ) * Egap y ≤ 400001 * 1 :=
      mul_le_mul_of_nonneg_left (le_of_lt hE1) (by norm_num)
    linarith
  · have h1 : (400001 : ℝ) * (1 - Egap y) ≤ 400001 * (1 / 10 ^ 37) :=
      mul_le_mul_of_nonneg_left hEu (by norm_num)
    have h2 : (400001 : ℝ) * (1 / 10 ^ 37) ≤ (1 / 10 ^ 30) / 10 := by
      norm_num
    nlinarith

theorem oscF_zero : gapAdj oscGames 0 = 5 := by
  rw [gapAdjOsc, Egap_zero]
  norm_num

theorem osc_one : gapFrom oscGames 0 1 = 10 := by
  rw [gapFrom_succ, gapFrom_zero, oscF_zero]
  norm_num

theorem qval_ten_pow : (qval 10) ^ (40 : ℕ) = 10 := by
  rw [qval, ← Real.rpow_natCast ((10 : ℝ) ^ ((10 : ℝ) / 400)) 40,
    ← Real.rpow_mul (by norm_num : (0 : ℝ) ≤ 10)]
  norm_num

theorem qval_ten_lb : (10592537 / 10 ^ 7 : ℝ) ≤ qval 10 := by
  have h : (10592537 / 10 ^ 7 : ℝ) ^ (40 : ℕ) ≤ (qval 10) ^ (40 : ℕ) := by
    rw [qval_ten_pow]
    norm_num
  exact le_of_pow_le_pow_left (by norm_num) (le_of_lt (qval_pos 10)) h

theorem qval_ten_ub : qval 10 ≤ (10592538 / 10 ^ 7 : ℝ) := by
  have h : (qval 10) ^ (40 : ℕ) ≤ (10592538 / 10 ^ 7 : ℝ) ^ (40 : ℕ) := by
    rw [qval_ten_pow]
    norm_num
  exact le_of_pow_le_pow_left (by norm_num) (by norm_num) h

theorem div_succ_mono {t1 t2 : ℝ} (h0 : 0 < t1) (h : t1 ≤ t2) :
    t1 / (t1 + 1) ≤ t2 / (t2 + 1) := by
  rw [div_le_div_iff (by linarith) (by linarith)]
  nlinarith

theorem E10_lb :
    (10592537 / 10 ^ 7 : ℝ) / ((10592537 / 10 ^ 7 : ℝ) + 1) ≤ Egap 10 := by
  rw [Egap]
  exact div_succ_mono (by norm_num) qval_ten_lb

theorem E10_ub :
    Egap 10 ≤ (10592538 / 10 ^ 7 : ℝ) / ((10592538 / 10 ^ 7 : ℝ) + 1) := by
  rw [Egap]
  exact div_succ_mono (qval_pos 10) qval_ten_ub

theorem osc_two_bounds :
    -115078 ≤ gapFrom oscGames 0 2 ∧ gapFrom oscGames 0 2 ≤ -115077 := by
  have h2 : gapFrom oscGames 0 2 = 10 + 2 * gapAdj oscGames 10 := by
    rw [gapFrom_succ, osc_one]
  rw [h2, gapAdjOsc]
  constructor
  · have h1 : (400001 : ℝ) * Egap 10 ≤
        400001 * ((10592538 / 10 ^ 7 : ℝ) / ((10592538 / 10 ^ 7 : ℝ) + 1)) :=
      mul_le_mul_of_nonneg_left E10_ub (by norm_num)
    have h3 : (-115078 : ℝ) ≤ 10 + 2 * (10 * (200001 -
        400001 * ((10592538 / 10 ^ 7 : ℝ) /
          ((10592538 / 10 ^ 7 : ℝ) + 1)))) := by
      norm_num
    linarith
  · have h1 : (400001 : ℝ) *
        ((10592537 / 10 ^ 7 : ℝ) / ((10592537 / 10 ^ 7 : ℝ) + 1)) ≤
        400001 * Egap 10 :=
      mul_le_mul_of_nonneg_left E10_lb (by norm_num)
    have h3 : (10 : ℝ) + 2 * (10 * (200001 -
        400001 * ((10592537 / 10 ^ 7 : ℝ) /
          ((10592537 / 10 ^ 7 : ℝ) + 1)))) ≤ -115077 := by
      norm_num
    linarith

/-- The even-round gap states drift up by `20` per two rounds, staying far
below `-15000` for the whole 10000-round budget. -/
theorem osc_invariant : ∀ j : ℕ, j ≤ 4998 →
    -115078 + 20 * (j : ℝ) - (j : ℝ) / 10 ^ 20 ≤
      gapFrom oscGames 0 (2 * j + 2) ∧
    gapFrom oscGames 0 (2 * j + 2) ≤ -115077 + 20 * (j : ℝ) + (j : ℝ) / 10 ^ 20 := by
  intro j
  induction j with
  | zero =>
    intro _
    have h := osc_two_bounds
    constructor
    · push_cast
      linarith [h.1]
    · push_cast
      linarith [h.2]
  | succ j ih =>
    intro hj1
    have hj : j ≤ 4998 := Nat.le_of_succ_le hj1
    have hj' : j ≤ 4997 := by omega
    have hjr : (j : ℝ) ≤ 4997 := by exact_mod_cast hj'
    have hjr0 : (0 : ℝ) ≤ (j : ℝ) := Nat.cast_nonneg j
    obtain ⟨hlo, hhi⟩ := ih hj
    have hsmall : (j : ℝ) / 10 ^ 20 ≤ 1 := by
      rw [div_le_one (by norm_num)]
      linarith
    have hx_neg : gapFrom oscGames 0 (2 * j + 2) ≤ -15000 := by
      linarith
    obtain ⟨hfd1, hfd2⟩ := oscF_down hx_neg
    have hy_eq : gapFrom oscGames 0 (2 * j + 3) =
        gapFrom oscGames 0 (2 * j + 2) +
          2 * gapAdj oscGames (gapFrom oscGames 0 (2 * j + 2)) :=
      gapFrom_succ oscGames 0 (2 * j + 2)
    have hy_pos : 15000 ≤ gapFrom oscGames 0 (2 * j + 3) := by
      rw [hy_eq]
      linarith
    obtain ⟨hfu1, hfu2⟩ := oscF_up hy_pos
    have hx'_eq : gapFrom oscGames 0 (2 * (j + 1) + 2) =
        gapFrom oscGames 0 (2 * j + 3) +
          2 * gapAdj oscGames (gapFrom oscGames 0 (2 * j + 3)) := by
      have hidx : 2 * (j + 1) + 2 = (2 * j + 3) + 1 := by ring
      rw [hidx]
      exact gapFrom_succ oscGames 0 (2 * j + 3)
    have htiny : (2 : ℝ) / 10 ^ 30 ≤ 1 / 10 ^ 20 := by norm_num
    have hyb1 : gapFrom oscGames 0 (2 * j + 3) ≤
        gapFrom oscGames 0 (2 * j + 2) + 4000020 := by
      rw [hy_eq]
      linarith
    have hyb2 : gapFrom oscGames 0 (2 * j + 2) + 4000020 - 2 / 10 ^ 30 ≤
        gapFrom oscGames 0 (2 * j + 3) := by
      rw [hy_eq]
      linarith
    have hx'1 : gapFrom oscGames 0 (2 * (j + 1) + 2) ≤
        gapFrom oscGames 0 (2 * j + 3) - 4000000 + 2 / 10 ^ 30 := by
      rw [hx'_eq]
      linarith
    have hx'2 : gapFrom oscGames 0 (2 * j + 3) - 4000000 ≤
        gapFrom oscGames 0 (2 * (j + 1) + 2) := by
      rw [hx'_eq]
      linarith
    have hsplit : ((j : ℝ) + 1) / 10 ^ 20 = (j : ℝ) / 10 ^ 20 + 1 / 10 ^ 20 := by
      ring
    constructor
    · push_cast
      linarith
    · push_cast
      linarith

/-- No round of the oscillating input is ever within tolerance. -/
theorem osc_noconv :
    ∀ m, m < 10000 →
      ¬ |gapAdj oscGames (gapFrom oscGames 0 m)| ≤ EPSILON := by
  have hE : EPSILON = 1 / 100 := by norm_num [EPSILON]
  intro m hm hc
  match m, hm with
  | 0, _ =>
    rw [gapFrom_zero, oscF_zero, hE] at hc
    have := (abs_le.1 hc).2
    norm_num at this
  | 1, _ =>
    rw [osc_one] at hc
    have hub : gapAdj oscGames 10 ≤ -50000 := by
      have h1 : (400001 : ℝ) *
          ((10592537 / 10 ^ 7 : ℝ) / ((10592537 / 10 ^ 7 : ℝ) + 1)) ≤
          400001 * Egap 10 :=
        mul_le_mul_of_nonneg_left E10_lb (by norm_num)
      have h3 : (10 : ℝ) * (200001 -
          400001 * ((10592537 / 10 ^ 7 : ℝ) /
            ((10592537 / 10 ^ 7 : ℝ) + 1))) ≤ -50000 := by
        norm_num
      rw [gapAdjOsc]
      linarith
    have := (abs_le.1 hc).1
    rw [hE] at this
    linarith
  | m2 + 2, hm =>
    obtain ⟨j, hj⟩ : ∃ j, (m2 + 2 = 2 * j + 2 ∧ j ≤ 4998) ∨
        (m2 + 2 = 2 * j + 3 ∧ j ≤ 4998) := ⟨m2 / 2, by omega⟩
    rcases hj with ⟨heq, hle⟩ | ⟨heq, hle⟩
    · obtain ⟨hlo, hhi⟩ := osc_invariant j hle
      have hjr : (j : ℝ) ≤ 4998 := by exact_mod_cast hle
      have hsmall : (j : ℝ) / 10 ^ 20 ≤ 1 := by
        rw [div_le_one (by norm_num)]
        linarith
      have hx_neg : gapFrom oscGames 0 (2 * j + 2) ≤ -15000 := by
        linarith
      obtain ⟨hfd1, -⟩ := oscF_down hx_neg
      rw [heq, hE] at hc
      have := (abs_le.1 hc).2
      linarith
    · obtain ⟨hlo, hhi⟩ := osc_invariant j hle
      have hjr : (j : ℝ) ≤ 4998 := by exact_mod_cast hle
      have hjr0 : (0 : ℝ) ≤ (j : ℝ) := Nat.cast_nonneg j
      have hsmall : (j : ℝ) / 10 ^ 20 ≤ 1 := by
        rw [div_le_one (by norm_num)]
        linarith
      have hx_neg : gapFrom oscGames 0 (2 * j + 2) ≤ -15000 := by
        linarith
      obtain ⟨hfd1, hfd2⟩ := oscF_down hx_neg
      have hy_eq : gapFrom oscGames 0 (2 * j + 3) =
          gapFrom oscGames 0 (2 * j + 2) +
            2 * gapAdj oscGames (gapFrom oscGames 0 (2 * j + 2)) :=
        gapFrom_succ oscGames 0 (2 * j + 2)
      have hy_pos : 15000 ≤ gapFrom oscGames 0 (2 * j + 3) := by
        rw [hy_eq]
        linarith
      obtain ⟨-, hfu2⟩ := oscF_up hy_pos
      rw [heq, hE] at hc
      have := (abs_le.1 hc).1
      linarith

/-- The oscillating input drives the loop to its round limit. -/
theorem osc_error :
    ∃ f, elo_ratings 2 oscGames = some (Except.error f) := by
  have hstg0 : stg 0 = [(1500 : ℝ), 1500] := by
    rw [stg]
    norm_num
  obtain ⟨f, hf⟩ :=
    elo_loop_two_error oscGames oscGames_two_player LIMIT 0
      (List.replicate 2 0) (fun m hm => osc_noconv m hm)
  refine ⟨f, ?_⟩
  rw [elo_ratings, show List.replicate 2 (1500 : ℝ) = stg 0 from hstg0.symm]
  exact hf

/-- Witness for C3: the oscillating input exhausts all 10000 rounds and
yields the full diagnostic bundle. -/
theorem elo_ratings_failure_spec_witness :
    ∃ f, elo_ratings 2 oscGames = some (Except.error f) ∧
      (f.rounds = 10000 ∧
        ratings_after oscGames (List.replicate 2 1500) 10000 =
          some f.last_ratings ∧
        round_adj oscGames (List.replicate 2 1500) 9999 =
          some f.last_adjustments ∧
        ∃ a ∈ f.last_adjustments, EPSILON < |a|) := by
  obtain ⟨f, hf⟩ := osc_error
  exact ⟨f, hf, elo_ratings_failure_spec 2 oscGames f hf⟩

/-- Witness for C10: two teams, no games. -/
theorem elo_ratings_safe_witness :
    (∀ g ∈ ([] : List Game), g.index_a < 2 ∧ g.index_b < 2) ∧
    (∀ g ∈ ([] : List Game), 0 ≤ g.points_a ∧ 0 ≤ g.points_b) ∧
    (elo_ratings 2 []).isSome :=
  ⟨fun g hg => absurd hg (List.not_mem_nil g),
    fun g hg => absurd hg (List.not_mem_nil g),
    elo_ratings_safe 2 [] (fun g hg => absurd hg (List.not_mem_nil g))
      (fun g hg => absurd hg (List.not_mem_nil g))⟩

end
